import Mathlib

/-!
Verification development for the VOD2strm catalog-export engine
(`vod_export.py`).  The Python string, path and filesystem logic is
shallowly embedded: Python strings become `String`/`List Char`, the
managed output root becomes an explicit `FS` value (a list of files with
contents plus a list of directories, paths being component lists relative
to the root), and each pass becomes a pure function from the item listing
and the initial filesystem to the final filesystem and the emitted counts.
-/

namespace VOD

/-! ## Python string primitives -/

/-- Python `\s` / `str.strip` whitespace, restricted to the ASCII range
(the only characters exercised by the titles considered here). -/
def pyIsSpace (c : Char) : Bool :=
  c = ' ' || c = '\t' || c = '\n' || c = '\r' || c = '\x0b' || c = '\x0c'

/-- Python `str.strip()`: drop whitespace from both ends. -/
def stripChars (l : List Char) : List Char :=
  ((l.dropWhile pyIsSpace).reverse.dropWhile pyIsSpace).reverse

/-- Python `str.rstrip()`: drop trailing whitespace. -/
def rstripChars (l : List Char) : List Char :=
  (l.reverse.dropWhile pyIsSpace).reverse

/-- Python slicing `l[:k]`, where `k` may be negative (counting from the
end, clamped at zero). -/
def pySliceTo (l : List Char) (k : Int) : List Char :=
  if 0 ≤ k then l.take k.toNat else l.take (l.length - k.natAbs)

/-- Python slicing `l[-n:]` for `n > 0`: the last `min n (length l)`
characters. -/
def pyLastN (l : List Char) (n : Nat) : List Char :=
  l.drop (l.length - n)

/-! ## Name sanitizer (`sanitize`, `shorten_component`, `clean_title`) -/

/-- The characters removed by `sanitize` (regex class `[\\/*?:"<>|]`). -/
def illegalChar (c : Char) : Bool :=
  c = '\\' || c = '/' || c = '*' || c = '?' || c = ':' || c = '"' ||
  c = '<' || c = '>' || c = '|'

/-- `sanitize(name)`: strip, then delete filesystem-illegal characters. -/
def sanitize (s : String) : String :=
  ⟨(stripChars s.data).filter (fun c => !illegalChar c)⟩

/-- `shorten_component(name, limit)`: sanitize, return unchanged when the
result fits, otherwise keep a right-stripped prefix of `limit - 10`
characters, an ellipsis, and the last 7 characters. -/
def shorten_component (name : String) (limit : Nat) : String :=
  let n := (sanitize name).data
  if n.length ≤ limit then ⟨n⟩
  else ⟨rstripChars (pySliceTo n ((limit : Int) - 10)) ++ ("...".data) ++ pyLastN n 7⟩

/-- The fixed word alternatives of the quality/language tag vocabulary, in
the order they appear in the regex alternation (the `\d{3,4}p` resolution
alternative is handled separately, and `SUBS?` contributes both `SUB` and
`SUBS`). -/
def altWords : List (List Char) :=
  ["4K", "UHD", "FHD", "HD", "SD", "EN", "ENG", "DUAL", "MULTI",
   "MULTI-AUDIO", "SUB", "SUBS", "DUBBED"].map String.data

/-- Match `\d{3,4}p` (case-insensitive `p`) at the head of `l`, greedy on
the digit count exactly as the regex engine is; returns the remainder. -/
def matchRes (l : List Char) : Option (List Char) :=
  match l with
  | a :: b :: c :: d :: e :: rest =>
    if a.isDigit && b.isDigit && c.isDigit && d.isDigit && (e = 'p' || e = 'P') then
      some rest
    else if a.isDigit && b.isDigit && c.isDigit && (d = 'p' || d = 'P') then
      some (e :: rest)
    else none
  | a :: b :: c :: d :: [] =>
    if a.isDigit && b.isDigit && c.isDigit && (d = 'p' || d = 'P') then some []
    else none
  | _ => none

/-- Case-insensitive (ASCII) literal-word match at the head of a list;
returns the remainder on success. -/
def dropWordCI : List Char → List Char → Option (List Char)
  | [], l => some l
  | _ :: _, [] => none
  | w :: ws, c :: cs => if c.toUpper = w.toUpper then dropWordCI ws cs else none

/-- The closing-bracket class `[\])]`: either `]` or `)`. -/
def closeBr : List Char → Option (List Char)
  | c :: r => if c = ']' || c = ')' then some r else none
  | [] => none

/-- Try each fixed-word alternative in regex order, requiring a closing
bracket right after the word. -/
def matchWordsAt : List (List Char) → List Char → Option (List Char)
  | [], _ => none
  | w :: ws, l =>
    match dropWordCI w l with
    | some r =>
      match closeBr r with
      | some r2 => some r2
      | none => matchWordsAt ws l
    | none => matchWordsAt ws l

/-- Match `[\[(](?:\d{3,4}p|4K|…|DUBBED)[\])]` at the head of `l`. -/
def matchTagAt (l : List Char) : Option (List Char) :=
  match l with
  | c :: rest =>
    if c = '[' || c = '(' then
      match matchRes rest with
      | some r =>
        match closeBr r with
        | some r2 => some r2
        | none => matchWordsAt altWords rest
      | none => matchWordsAt altWords rest
    else none
  | [] => none

/-- Match `\s*[\[(]TAG[\])]` starting exactly at the head of `l`
(the leading `\s*` is greedy; whitespace is never an opening bracket, so
taking the maximal run is what the regex engine does). -/
def matchWsTagAt (l : List Char) : Option (List Char) :=
  matchTagAt (l.dropWhile pyIsSpace)

/-- Left-to-right, non-overlapping removal of every `\s*[\[(]TAG[\])]`
match, as performed by the first `re.sub` of `clean_title`.  The fuel is
the input length; every step consumes at least one character. -/
def removeBracketTagsGo : Nat → List Char → List Char
  | 0, l => l
  | _ + 1, [] => []
  | fuel + 1, c :: rest =>
    match matchWsTagAt (c :: rest) with
    | some remainder => removeBracketTagsGo fuel remainder
    | none => c :: removeBracketTagsGo fuel rest

def removeBracketTags (l : List Char) : List Char :=
  removeBracketTagsGo l.length l

/-- Match one tag alternative as a suffix of `l` (for the trailing
`- TAG` rule): returns what stands before the tag.  At most one
alternative can succeed together with its left context, so trying the
words in order is faithful to the regex alternation. -/
def dropAltSuffix (l : List Char) : Option (List Char) :=
  let r := l.reverse
  -- resolution tag `\d{3,4}p`, read from the right
  match r with
  | e :: d :: c :: b :: a :: rest =>
    if (e = 'p' || e = 'P') && d.isDigit && c.isDigit && b.isDigit && a.isDigit then
      some rest.reverse
    else if (e = 'p' || e = 'P') && d.isDigit && c.isDigit && b.isDigit then
      some (a :: rest).reverse
    else
      (altWords.filterMap (fun w =>
        match dropWordCI w.reverse r with
        | some rem => some rem.reverse
        | none => none)).head?
  | _ =>
    (altWords.filterMap (fun w =>
      match dropWordCI w.reverse r with
      | some rem => some rem.reverse
      | none => none)).head?

/-- The second `re.sub` of `clean_title`: remove a trailing
`\s*-\s*TAG\s*$` group (case-insensitive). -/
def removeTrailingDashTag (l : List Char) : List Char :=
  let t := rstripChars l
  match dropAltSuffix t with
  | some before =>
    let b := rstripChars before
    match b.reverse with
    | '-' :: r4 => rstripChars r4.reverse
    | _ => l
  | none => l

/-- The third `re.sub` of `clean_title`: remove a trailing
`\(\s*\d{4}\s*\)\s*$` year group.  The pattern has no leading `\s*`, so
whitespace before the `(` survives (it is collapsed later). -/
def removeTrailingYear (l : List Char) : List Char :=
  let r := l.reverse.dropWhile pyIsSpace
  match r with
  | ')' :: r1 =>
    let r2 := r1.dropWhile pyIsSpace
    match r2 with
    | d1 :: d2 :: d3 :: d4 :: r3 =>
      if d1.isDigit && d2.isDigit && d3.isDigit && d4.isDigit then
        match r3.dropWhile pyIsSpace with
        | '(' :: r4 => r4.reverse
        | _ => l
      else l
    | _ => l
  | _ => l

/-- `re.sub(r"\s+", " ", s)`: collapse each maximal whitespace run into a
single space. -/
def collapseRun (l : List Char) : List Char :=
  l.foldr
    (fun c acc =>
      if pyIsSpace c then
        match acc with
        | ' ' :: tl => ' ' :: tl
        | _ => ' ' :: acc
      else c :: acc)
    []

/-- `clean_title(raw)`.  The `unicodedata.normalize("NFKC", ·)` step is
the identity on ASCII strings, which is the domain on which this
development evaluates the function, so it is modelled as the identity. -/
def clean_title (raw : String) : String :=
  if raw = "" then ""
  else
    let s := raw.data
    let s := removeBracketTags s
    let s := removeTrailingDashTag s
    let s := removeTrailingYear s
    ⟨stripChars (collapseRun s)⟩

/-! ## Series episode naming (`export_series_for_account`, lines 958-962) -/

/-- Python `f"{n:02d}"` for a natural number. -/
def pad2 (n : Nat) : String :=
  if n < 10 then "0" ++ toString n else toString n

/-- `code = f"S{season:02d}E{ep_num:02d}" if ep_num else f"S{season:02d}"`. -/
def episode_code (season ep_num : Nat) : String :=
  if ep_num ≠ 0 then "S" ++ pad2 season ++ "E" ++ pad2 ep_num
  else "S" ++ pad2 season

/-- `filename_base = shorten_component(f"{code} - {ep_title}")`, where
`ep_title` is the already cleaned and shortened episode title. -/
def episode_filename_base (season ep_num : Nat) (ep_title : String) : String :=
  shorten_component (episode_code season ep_num ++ " - " ++ ep_title) 80

/-! ## Catalog items and the movie path mapping -/

/-- Python truthiness for an optional string field: present and nonempty. -/
def truthy : Option String → Option String
  | some s => if s = "" then none else some s
  | none => none

/-- A movie row as consumed by `process_movie_item`: the dictionary keys
the function reads.  `year` holds the already-parsed `parse_int` result
(`none` when the field is absent or unparsable). -/
structure MovieItem where
  mid : Option Int
  uuid : Option String
  name : Option String
  title : Option String
  year : Option Int
  category : Option String
  category_name : Option String
  group_name : Option String
  cp_category : Option String
  cp_category_name : Option String
  cp_group_name : Option String
  tmdb_id : Option String
deriving DecidableEq, Repr

/-- `get_category(item)`: first truthy of the three direct keys, then the
three `custom_properties` keys, else `"Uncategorized"`. -/
def get_category (m : MovieItem) : String :=
  match truthy m.category with
  | some v => v
  | none =>
  match truthy m.category_name with
  | some v => v
  | none =>
  match truthy m.group_name with
  | some v => v
  | none =>
  match truthy m.cp_category with
  | some v => v
  | none =>
  match truthy m.cp_category_name with
  | some v => v
  | none =>
  match truthy m.cp_group_name with
  | some v => v
  | none => "Uncategorized"

/-- `movie.get("name") or movie.get("title") or f"Movie-{movie_id}"`
(Python renders a missing id as `None`). -/
def movieResolvedName (m : MovieItem) : String :=
  match truthy m.name with
  | some n => n
  | none =>
  match truthy m.title with
  | some t => t
  | none =>
    "Movie-" ++ (match m.mid with | some i => toString i | none => "None")

/-- The shortened category component of a movie's path. -/
def movieCategory (m : MovieItem) : String :=
  shorten_component (get_category m) 80

/-- The shortened title folder: `f"{cleaned_name} ({year})" if year else
cleaned_name`, with the `"Unknown Movie"` fallback for an empty cleaned
title and Python truthiness on the year (0 counts as absent). -/
def movieFolderName (m : MovieItem) : String :=
  let cleaned := let c := clean_title (movieResolvedName m)
                 if c = "" then "Unknown Movie" else c
  let folder := match m.year with
    | some y => if y ≠ 0 then cleaned ++ " (" ++ toString y ++ ")" else cleaned
    | none => cleaned
  shorten_component folder 80

/-- The marker path of a movie, relative to the movies root:
`<category>/<folder>/<folder>.strm`. -/
def movie_strm_path (m : MovieItem) : List String :=
  [movieCategory m, movieFolderName m, movieFolderName m ++ ".strm"]

/-! ## Filesystem model

Paths are component lists relative to the managed root.  A state is a
list of files (path and content) together with a list of directories; the
operations below are the net effects of the Python calls, with
`write_text_atomic`'s temp-file-then-rename collapsed into its visible
result (one atomic content replacement). -/

structure FSFile where
  path : List String
  content : String
deriving DecidableEq, Repr

structure FS where
  files : List FSFile
  dirs : List (List String)
deriving DecidableEq, Repr

def lookupFile (files : List FSFile) (p : List String) : Option String :=
  (files.find? (fun f => f.path = p)).map (fun f => f.content)

/-- Replace the content at `p` when an entry exists, else append a new
entry (the net effect of `os.replace` onto path `p`). -/
def upsertFile (files : List FSFile) (p : List String) (c : String) : List FSFile :=
  if files.any (fun f => f.path = p) then
    files.map (fun f => if f.path = p then { f with content := c } else f)
  else
    files ++ [⟨p, c⟩]

/-- All nonempty ancestors of a path, shortest first (`p` included). -/
def ancestorsOf (p : List String) : List (List String) :=
  (List.range p.length).map (fun k => p.take (k + 1))

/-- `path.mkdir(parents=True, exist_ok=True)`. -/
def mkdirP (dirs : List (List String)) (p : List String) : List (List String) :=
  (ancestorsOf p).foldl (fun ds d => if d ∈ ds then ds else ds ++ [d]) dirs

/-- `write_text_atomic(path, content)`: ensure the parent directory and
atomically replace the file content. -/
def write_text_atomic (fs : FS) (p : List String) (content : String) : FS :=
  { files := upsertFile fs.files p content, dirs := mkdirP fs.dirs p.dropLast }

/-- `write_strm(path, url)` writes `f"{url}\n"`. -/
def write_strm (fs : FS) (p : List String) (url : String) : FS :=
  write_text_atomic fs p (url ++ "\n")

/-! ## The movies pass (`export_movies_for_account`)

The embedding covers the configuration with `ENABLE_NFO = ENABLE_IMAGES =
false`, so that the enrichment branches of `process_movie_item`
(lines 724-751) are skipped; only the marker-file logic, the expected-set
accumulation, the cleanup phase and the emitted counts are modelled. -/

structure Cfg where
  proxyHost : String
  deleteOld : Bool
deriving DecidableEq, Repr

structure PassState where
  fs : FS
  expected : List (List String)
  added : Nat
  updated : Nat
  written : Nat
deriving DecidableEq, Repr

/-- `process_movie_item(movie)` (lines 697-722): skip on a falsy uuid,
otherwise compute the canonical path, record it in the expected set,
create the folder and atomically write the marker, counting
added/updated by prior existence. -/
def process_movie_item (cfg : Cfg) (st : PassState) (m : MovieItem) : PassState :=
  match truthy m.uuid with
  | none => st
  | some uuid =>
    let folderPath := [movieCategory m, movieFolderName m]
    let fs1 : FS := { st.fs with dirs := mkdirP st.fs.dirs folderPath }
    let strmPath := movie_strm_path m
    let url := "http://" ++ cfg.proxyHost ++ "/proxy/vod/movie/" ++ uuid
    let expected := if strmPath ∈ st.expected then st.expected
                    else st.expected ++ [strmPath]
    let existed := (lookupFile fs1.files strmPath).isSome
    let fs2 := write_strm fs1 strmPath url
    { fs := fs2
      expected := expected
      added := if existed then st.added else st.added + 1
      updated := if existed then st.updated + 1 else st.updated
      written := st.written + 1 }

/-- A file is a marker when its final component matches the glob
`*.strm`, i.e. its name ends in `.strm`. -/
def fileIsStrm (f : FSFile) : Bool :=
  match f.path.getLast? with
  | some n => decide (".strm".data <:+ n.data)
  | none => false

/-- The Cleaning phase (movies: lines 823-835; series: lines 1006-1017).
When destructive cleanup is enabled, unlink every `*.strm` file whose
path is not in the expected set, then prune directories deepest first
with `rmdir`, ignoring failures.  The prune's net effect is kept: a
directory is removed exactly when no surviving file lies beneath it, and
ancestors of surviving files are kept because their chain of descendants
makes every `rmdir` on them fail.  Returns the new state and the number
of unlinked markers. -/
def cleanupRoot (deleteOld : Bool) (expected : List (List String)) (fs : FS) :
    FS × Nat :=
  if deleteOld then
    let staleP : FSFile → Bool :=
      fun f => fileIsStrm f && !(decide (f.path ∈ expected))
    let files' := fs.files.filter (fun f => !(staleP f))
    let dirs' := fs.dirs.filter
      (fun d => files'.any (fun f => decide (d <+: f.path) && decide (d ≠ f.path)))
    (⟨files', dirs'⟩, (fs.files.filter staleP).length)
  else (fs, 0)

structure PassResult where
  fs : FS
  expected : List (List String)
  added : Nat
  updated : Nat
  removedActual : Nat
  active : Nat
  reportedRemoved : Nat
deriving DecidableEq, Repr

/-- One movies pass over a root, given the item listing that the Listing
phase produced: process every item, run cleanup, and emit the summary
counts.  `reportedRemoved` is what the summary line (line 837) prints for
"removed": the f-string there interpolates the literal `{0}`, not the
`removed` variable, so the emitted value is always `0`;
`removedActual` is the number of markers the Cleaning phase unlinked. -/
def export_movies_pass (cfg : Cfg) (items : List MovieItem) (fs0 : FS) :
    PassResult :=
  let st := items.foldl (process_movie_item cfg)
    { fs := fs0, expected := [], added := 0, updated := 0, written := 0 }
  let cleaned := cleanupRoot cfg.deleteOld st.expected st.fs
  { fs := cleaned.1
    expected := st.expected
    added := st.added
    updated := st.updated
    removedActual := cleaned.2
    active := st.expected.length
    reportedRemoved := 0 }

/-! ## Paginated listing (`api_paginate`, lines 245-284, and the movies
streaming loop, lines 769-816) -/

/-- The response shapes `api_paginate` distinguishes: a dict carrying
`results` and a truthy-or-not `next`, a plain JSON list, or a dict
without `results` (whose row list is empty). -/
inductive PageData (α : Type) where
  | dictResults (rows : List α) (next : Bool)
  | plainList (rows : List α)
  | otherDict
deriving DecidableEq, Repr

def pageRows {α : Type} : PageData α → List α
  | .dictResults rows _ => rows
  | .plainList rows => rows
  | .otherDict => []

/-- The `while True` body of `api_paginate`.  The source loop has a
`max_pages` cap checked after incrementing the page counter; the fuel is
an upper bound on the remaining iterations and `max_pages + 1` suffices
because the cap stops the loop first. -/
def api_paginate_go {α : Type} (fetch : Nat → Option (PageData α))
    (pageSize maxPages : Nat) : Nat → Nat → List α → List α
  | 0, _, acc => acc
  | fuel + 1, page, acc =>
    match fetch page with
    | none => acc
    | some data =>
      let rows := pageRows data
      if rows.isEmpty then acc
      else
        let acc' := acc ++ rows
        let stop := match data with
          | .dictResults r nxt => decide (r.length < pageSize) || !nxt
          | .plainList r => decide (r.length < pageSize)
          | .otherDict => true
        if stop then acc'
        else if maxPages < page + 1 then acc'
        else api_paginate_go fetch pageSize maxPages fuel (page + 1) acc'

/-- `api_paginate(base, path, token, base_params, page_size, max_pages)`
with the transport abstracted as `fetch : page ↦ parsed response or
failure` (`api_get` returns `None` on timeout, transport error, non-2xx
status, empty body or non-JSON body). -/
def api_paginate {α : Type} (fetch : Nat → Option (PageData α))
    (pageSize maxPages : Nat) : List α :=
  api_paginate_go fetch pageSize maxPages (maxPages + 1) 1 []

/-- The movies streaming loop (lines 776-816): like `api_paginate` with
page size 250 but with no `max_pages` cap; each fetched page's rows are
processed immediately, which has the same net effect on the pass as
processing the concatenated list afterwards, since processing does not
influence fetching.  The fuel bounds the model's page count. -/
def movies_fetch_go (fetch : Nat → Option (PageData MovieItem)) :
    Nat → Nat → List MovieItem → List MovieItem
  | 0, _, acc => acc
  | fuel + 1, page, acc =>
    match fetch page with
    | none => acc
    | some data =>
      let rows := pageRows data
      if rows.isEmpty then acc
      else
        let acc' := acc ++ rows
        let hasNext := match data with
          | .dictResults r nxt => nxt && !(decide (r.length < 250))
          | .plainList r => decide (250 ≤ r.length)
          | .otherDict => false
        if hasNext then movies_fetch_go fetch fuel (page + 1) acc'
        else acc'

def movies_listing (fetch : Nat → Option (PageData MovieItem)) (fuel : Nat) :
    List MovieItem :=
  movies_fetch_go fetch fuel 1 []

/-- `export_movies_for_account`: obtain the listing (cache hit, else the
streaming fetch; a cached empty list processes nothing, like processing
`[]`), then run the pass.  Cache persistence lives outside the managed
root and is not part of the filesystem model. -/
def export_movies_for_account (cfg : Cfg) (cached : Option (List MovieItem))
    (fetch : Nat → Option (PageData MovieItem)) (fuel : Nat) (fs0 : FS) :
    PassResult :=
  let items := match cached with
    | some l => l
    | none => movies_listing fetch fuel
  export_movies_pass cfg items fs0

/-! ## Proof layer: basic filesystem lemmas -/

/-- Some entry of `files` carries path `p`. -/
def HasPath (files : List FSFile) (p : List String) : Prop :=
  ∃ f, f ∈ files ∧ f.path = p

/-- The per-write content substitution performed by an in-place
`upsertFile`. -/
def substContent (p : List String) (c : String) (f : FSFile) : FSFile :=
  if f.path = p then { f with content := c } else f

theorem substContent_path (p : List String) (c : String) (f : FSFile) :
    (substContent p c f).path = f.path := by
  unfold substContent
  split <;> rfl

theorem upsertFile_of_hasPath {files : List FSFile} {p : List String}
    (c : String) (h : HasPath files p) :
    upsertFile files p c = files.map (substContent p c) := by
  obtain ⟨f, hf, hfp⟩ := h
  unfold upsertFile
  rw [if_pos]
  · rfl
  · exact List.any_eq_true.mpr ⟨f, hf, by simp [hfp]⟩

theorem hasPath_upsert_self (files : List FSFile) (p : List String) (c : String) :
    HasPath (upsertFile files p c) p := by
  by_cases h : HasPath files p
  · rw [upsertFile_of_hasPath c h]
    obtain ⟨f, hf, hfp⟩ := h
    exact ⟨substContent p c f, List.mem_map_of_mem _ hf, by rw [substContent_path, hfp]⟩
  · unfold upsertFile
    rw [if_neg]
    · exact ⟨⟨p, c⟩, by simp⟩
    · intro hany
      obtain ⟨f, hf, hfp⟩ := List.any_eq_true.mp hany
      exact h ⟨f, hf, by simpa using hfp⟩

theorem hasPath_upsert_mono {files : List FSFile} {q : List String}
    (p : List String) (c : String) (h : HasPath files q) :
    HasPath (upsertFile files p c) q := by
  obtain ⟨f, hf, hfp⟩ := h
  unfold upsertFile
  split
  · exact ⟨substContent p c f, List.mem_map_of_mem _ hf, by rw [substContent_path, hfp]⟩
  · exact ⟨f, List.mem_append_left _ hf, hfp⟩

theorem mem_upsert_of_not_strmPath {files : List FSFile} {f : FSFile}
    (p : List String) (c : String) (hf : f ∈ files) (hne : f.path ≠ p) :
    f ∈ upsertFile files p c := by
  unfold upsertFile
  split
  · have : substContent p c f = f := by unfold substContent; rw [if_neg hne]
    exact this ▸ List.mem_map_of_mem _ hf
  · exact List.mem_append_left _ hf

theorem foldlInsert_mem (l : List (List String)) :
    ∀ (ds : List (List String)) (d : List String), d ∈ ds →
      d ∈ l.foldl (fun ds d2 => if d2 ∈ ds then ds else ds ++ [d2]) ds := by
  induction l with
  | nil => intro ds d h; exact h
  | cons a l ih =>
    intro ds d h
    simp only [List.foldl_cons]
    split
    · exact ih ds d h
    · exact ih _ d (List.mem_append_left _ h)

theorem mkdirP_mono {dirs : List (List String)} {d : List String}
    (p : List String) (h : d ∈ dirs) : d ∈ mkdirP dirs p :=
  foldlInsert_mem (ancestorsOf p) dirs d h

theorem mkdirP_of_all_mem {dirs : List (List String)} {p : List String}
    (h : ∀ d ∈ ancestorsOf p, d ∈ dirs) : mkdirP dirs p = dirs := by
  unfold mkdirP
  revert h
  generalize ancestorsOf p = l
  induction l generalizing dirs with
  | nil => intro _; rfl
  | cons a l ih =>
    intro h
    simp only [List.foldl_cons]
    rw [if_pos (h a (by simp))]
    exact ih (fun d hd => h d (by simp [hd]))

theorem mem_mkdirP_ancestor {dirs : List (List String)} {p d : List String}
    (h : d ∈ ancestorsOf p) : d ∈ mkdirP dirs p := by
  unfold mkdirP
  revert h
  generalize ancestorsOf p = l
  induction l generalizing dirs with
  | nil => intro h; exact absurd h (List.not_mem_nil d)
  | cons a l ih =>
    intro h
    rcases List.mem_cons.mp h with h | h
    · subst h
      simp only [List.foldl_cons]
      split
      case isTrue hmem => exact foldlInsert_mem l dirs d hmem
      case isFalse hmem => exact foldlInsert_mem l _ d (by simp)
    · simp only [List.foldl_cons]
      split
      · exact ih h
      · exact ih h

/-! ## Proof layer: the write sequence of a pass -/

/-- The marker write an item causes: `none` when the item is skipped for a
falsy uuid, else its path and the full file content. -/
def movieWrite (cfg : Cfg) (m : MovieItem) : Option (List String × String) :=
  match truthy m.uuid with
  | none => none
  | some uuid =>
    some (movie_strm_path m, "http://" ++ cfg.proxyHost ++ "/proxy/vod/movie/" ++ uuid ++ "\n")

def movieWrites (cfg : Cfg) (items : List MovieItem) : List (List String × String) :=
  items.filterMap (movieWrite cfg)

def applyWrites (ws : List (List String × String)) (l : List FSFile) : List FSFile :=
  ws.foldl (fun acc w => upsertFile acc w.1 w.2) l

/-- The content the last write to `p` in `ws` leaves behind, if any. -/
def lastWrite (ws : List (List String × String)) (p : List String) : Option String :=
  match ws with
  | [] => none
  | w :: rest =>
    match lastWrite rest p with
    | some c => some c
    | none => if w.1 = p then some w.2 else none

/-- The pointwise effect of a write sequence on entries whose path it
touches. -/
def substLast (ws : List (List String × String)) (f : FSFile) : FSFile :=
  match lastWrite ws f.path with
  | some c => { f with content := c }
  | none => f

theorem applyWrites_nil (l : List FSFile) : applyWrites [] l = l := rfl

theorem applyWrites_cons (w : List String × String) (ws : List (List String × String))
    (l : List FSFile) : applyWrites (w :: ws) l = applyWrites ws (upsertFile l w.1 w.2) := rfl

theorem hasPath_applyWrites {l : List FSFile} {q : List String}
    (ws : List (List String × String)) (h : HasPath l q) :
    HasPath (applyWrites ws l) q := by
  induction ws generalizing l with
  | nil => exact h
  | cons w ws ih => exact ih (hasPath_upsert_mono w.1 w.2 h)

theorem fsfile_eq_of_parts {f g : FSFile} (hp : f.path = g.path)
    (hc : f.content = g.content) : f = g := by
  cases f; cases g
  cases hp; cases hc
  rfl

theorem map_pointwise_id {α : Type} {f : α → α} :
    ∀ {l : List α}, (∀ a ∈ l, f a = a) → l.map f = l := by
  intro l
  induction l with
  | nil => intro _; rfl
  | cons a l ih =>
    intro h
    simp only [List.map_cons, h a (by simp)]
    rw [ih (fun b hb => h b (by simp [hb]))]

theorem lastWrite_cons_of_some {ws : List (List String × String)} {p : List String}
    {c : String} (w : List String × String) (h : lastWrite ws p = some c) :
    lastWrite (w :: ws) p = some c := by
  unfold lastWrite
  rw [h]

theorem lastWrite_cons_of_none {ws : List (List String × String)} {p : List String}
    (w : List String × String) (h : lastWrite ws p = none) :
    lastWrite (w :: ws) p = if w.1 = p then some w.2 else none := by
  unfold lastWrite
  rw [h]

theorem lastWrite_nil (p : List String) : lastWrite [] p = none := rfl

theorem substContent_content (p : List String) (c : String) (f : FSFile) :
    (substContent p c f).content = if f.path = p then c else f.content := by
  unfold substContent
  split <;> rfl

theorem substLast_path (ws : List (List String × String)) (f : FSFile) :
    (substLast ws f).path = f.path := by
  unfold substLast
  split <;> rfl

theorem substLast_content (ws : List (List String × String)) (f : FSFile) :
    (substLast ws f).content = (lastWrite ws f.path).getD f.content := by
  unfold substLast
  cases h : lastWrite ws f.path <;> simp [h]

theorem upsertFile_of_not_hasPath {l : List FSFile} {p : List String}
    (c : String) (h : ¬ HasPath l p) : upsertFile l p c = l ++ [⟨p, c⟩] := by
  unfold upsertFile
  rw [if_neg]
  intro hany
  obtain ⟨f, hf, hfp⟩ := List.any_eq_true.mp hany
  exact h ⟨f, hf, by simpa using hfp⟩

/-- Where an entry of an upsert result comes from. -/
theorem mem_upsertFile_cases {l : List FSFile} {p : List String} {c : String}
    {f : FSFile} (h : f ∈ upsertFile l p c) :
    (f.path = p ∧ f.content = c) ∨ (f ∈ l ∧ f.path ≠ p) := by
  by_cases hp : HasPath l p
  · rw [upsertFile_of_hasPath c hp] at h
    obtain ⟨g, hg, hgf⟩ := List.mem_map.mp h
    unfold substContent at hgf
    by_cases hgp : g.path = p
    · rw [if_pos hgp] at hgf
      left
      rw [← hgf]
      exact ⟨hgp, rfl⟩
    · rw [if_neg hgp] at hgf
      right
      exact ⟨hgf ▸ hg, hgf ▸ hgp⟩
  · rw [upsertFile_of_not_hasPath c hp] at h
    rcases List.mem_append.mp h with h | h
    · by_cases hfp : f.path = p
      · exact absurd ⟨f, h, hfp⟩ hp
      · exact Or.inr ⟨h, hfp⟩
    · simp only [List.mem_singleton] at h
      subst h
      exact Or.inl ⟨rfl, rfl⟩

/-- Every entry of `applyWrites ws l` whose path was written carries the
last written content; entries with unwritten paths come from `l`. -/
theorem mem_applyWrites {ws : List (List String × String)} {l : List FSFile}
    {f : FSFile} (h : f ∈ applyWrites ws l) :
    (∀ c, lastWrite ws f.path = some c → f.content = c) ∧
    (lastWrite ws f.path = none → f ∈ l) := by
  induction ws generalizing l with
  | nil =>
    constructor
    · intro c hc
      rw [lastWrite_nil] at hc
      cases hc
    · intro _
      exact h
  | cons w ws ih =>
    rw [applyWrites_cons] at h
    obtain ⟨ih1, ih2⟩ := ih h
    cases hrest : lastWrite ws f.path with
    | some c2 =>
      have hcons := lastWrite_cons_of_some (p := f.path) w hrest
      constructor
      · intro c hc
        rw [hcons] at hc
        injection hc with hc
        exact hc ▸ ih1 c2 hrest
      · intro hn
        rw [hcons] at hn
        cases hn
    | none =>
      have hcons := lastWrite_cons_of_none (p := f.path) w hrest
      have hmem := ih2 hrest
      rcases mem_upsertFile_cases hmem with ⟨hp, hcnt⟩ | ⟨hl, hp⟩
      · constructor
        · intro c hc
          rw [hcons, if_pos hp.symm] at hc
          injection hc with hc
          exact hc ▸ hcnt
        · intro hn
          rw [hcons, if_pos hp.symm] at hn
          cases hn
      · constructor
        · intro c hc
          rw [hcons, if_neg (fun h2 => hp h2.symm)] at hc
          cases hc
        · intro _
          exact hl

/-- When every written path already has an entry, a write sequence acts as
the pointwise substitution `substLast`. -/
theorem applyWrites_eq_map {ws : List (List String × String)} :
    ∀ {l : List FSFile}, (∀ w ∈ ws, HasPath l w.1) →
      applyWrites ws l = l.map (substLast ws) := by
  induction ws with
  | nil =>
    intro l _
    rw [applyWrites_nil]
    exact (map_pointwise_id (fun f _ => by
      apply fsfile_eq_of_parts
      · rw [substLast_path]
      · rw [substLast_content, lastWrite_nil, Option.getD_none])).symm
  | cons w ws ih =>
    intro l h
    rw [applyWrites_cons, upsertFile_of_hasPath w.2 (h w (by simp))]
    rw [ih (by
      intro w2 hw2
      obtain ⟨f, hf, hfp⟩ := h w2 (by simp [hw2])
      exact ⟨substContent w.1 w.2 f, List.mem_map_of_mem _ hf,
        by rw [substContent_path, hfp]⟩)]
    rw [List.map_map]
    apply List.map_congr_left
    intro f _
    show substLast ws (substContent w.1 w.2 f) = substLast (w :: ws) f
    apply fsfile_eq_of_parts
    · rw [substLast_path, substContent_path, substLast_path]
    · rw [substLast_content, substContent_path, substLast_content]
      cases hrest : lastWrite ws f.path with
      | some c =>
        rw [lastWrite_cons_of_some w hrest]
        simp
      | none =>
        rw [lastWrite_cons_of_none w hrest, substContent_content]
        by_cases hp : f.path = w.1
        · rw [if_pos hp, if_pos hp.symm]
          simp
        · rw [if_neg hp, if_neg (fun h2 => hp h2.symm)]

/-- A write sequence whose paths all exist with their final contents is a
no-op. -/
theorem applyWrites_fixed {ws : List (List String × String)} {l : List FSFile}
    (hkeys : ∀ w ∈ ws, HasPath l w.1)
    (hfix : ∀ f ∈ l, ∀ c, lastWrite ws f.path = some c → f.content = c) :
    applyWrites ws l = l := by
  rw [applyWrites_eq_map hkeys]
  apply map_pointwise_id
  intro f hf
  apply fsfile_eq_of_parts
  · rw [substLast_path]
  · rw [substLast_content]
    cases hrest : lastWrite ws f.path with
    | some c => simp [hfix f hf c hrest]
    | none => simp

/-! ## Proof layer: the processing fold -/

def runItems (cfg : Cfg) (st : PassState) (items : List MovieItem) : PassState :=
  items.foldl (process_movie_item cfg) st

theorem runItems_nil (cfg : Cfg) (st : PassState) : runItems cfg st [] = st := rfl

theorem runItems_cons (cfg : Cfg) (st : PassState) (m : MovieItem)
    (items : List MovieItem) :
    runItems cfg st (m :: items) = runItems cfg (process_movie_item cfg st m) items := rfl

theorem export_movies_pass_eq (cfg : Cfg) (items : List MovieItem) (fs0 : FS) :
    export_movies_pass cfg items fs0 =
      (let st := runItems cfg ⟨fs0, [], 0, 0, 0⟩ items
       let cleaned := cleanupRoot cfg.deleteOld st.expected st.fs
       ⟨cleaned.1, st.expected, st.added, st.updated, cleaned.2,
        st.expected.length, 0⟩) := rfl

theorem movieWrite_of_skip {m : MovieItem} (cfg : Cfg) (h : truthy m.uuid = none) :
    movieWrite cfg m = none := by
  unfold movieWrite
  rw [h]

theorem movieWrite_of_uuid {m : MovieItem} {u : String} (cfg : Cfg)
    (h : truthy m.uuid = some u) :
    movieWrite cfg m =
      some (movie_strm_path m,
        "http://" ++ cfg.proxyHost ++ "/proxy/vod/movie/" ++ u ++ "\n") := by
  unfold movieWrite
  rw [h]

theorem process_of_skip {m : MovieItem} (cfg : Cfg) (st : PassState)
    (h : truthy m.uuid = none) : process_movie_item cfg st m = st := by
  unfold process_movie_item
  rw [h]

theorem process_files_of_uuid {m : MovieItem} {u : String} (cfg : Cfg)
    (st : PassState) (h : truthy m.uuid = some u) :
    (process_movie_item cfg st m).fs.files =
      upsertFile st.fs.files (movie_strm_path m)
        ("http://" ++ cfg.proxyHost ++ "/proxy/vod/movie/" ++ u ++ "\n") := by
  unfold process_movie_item
  rw [h]
  rfl

theorem process_dirs_of_uuid {m : MovieItem} {u : String} (cfg : Cfg)
    (st : PassState) (h : truthy m.uuid = some u) :
    (process_movie_item cfg st m).fs.dirs =
      mkdirP (mkdirP st.fs.dirs [movieCategory m, movieFolderName m])
        ((movie_strm_path m).dropLast) := by
  unfold process_movie_item
  rw [h]
  rfl

theorem process_expected_of_uuid {m : MovieItem} {u : String} (cfg : Cfg)
    (st : PassState) (h : truthy m.uuid = some u) :
    (process_movie_item cfg st m).expected =
      (if movie_strm_path m ∈ st.expected then st.expected
       else st.expected ++ [movie_strm_path m]) := by
  unfold process_movie_item
  rw [h]

theorem process_added_of_uuid {m : MovieItem} {u : String} (cfg : Cfg)
    (st : PassState) (h : truthy m.uuid = some u) :
    (process_movie_item cfg st m).added =
      (if (lookupFile st.fs.files (movie_strm_path m)).isSome then st.added
       else st.added + 1) := by
  unfold process_movie_item
  rw [h]

theorem dropLast_movie_strm_path (m : MovieItem) :
    (movie_strm_path m).dropLast = [movieCategory m, movieFolderName m] := rfl

/-- The files of a processing fold are the initial files with the pass's
write sequence applied. -/
theorem runItems_files (cfg : Cfg) :
    ∀ (items : List MovieItem) (st : PassState),
      (runItems cfg st items).fs.files =
        applyWrites (movieWrites cfg items) st.fs.files := by
  intro items
  induction items with
  | nil => intro st; rfl
  | cons m rest ih =>
    intro st
    rw [runItems_cons]
    cases h : truthy m.uuid with
    | none =>
      rw [process_of_skip cfg st h]
      rw [ih st]
      unfold movieWrites
      rw [List.filterMap_cons, movieWrite_of_skip cfg h]
    | some u =>
      rw [ih (process_movie_item cfg st m)]
      unfold movieWrites
      rw [List.filterMap_cons, movieWrite_of_uuid cfg h]
      rw [applyWrites_cons]
      rw [process_files_of_uuid cfg st h]

/-! ## Proof layer: expected set, presence, counters, directories -/

theorem process_expected_congr {m : MovieItem} (cfg : Cfg) {st st2 : PassState}
    (h : st.expected = st2.expected) :
    (process_movie_item cfg st m).expected = (process_movie_item cfg st2 m).expected := by
  cases hu : truthy m.uuid with
  | none => rw [process_of_skip cfg st hu, process_of_skip cfg st2 hu, h]
  | some u => rw [process_expected_of_uuid cfg st hu, process_expected_of_uuid cfg st2 hu, h]

/-- The expected set of a fold depends only on the items and the starting
expected set, not on the filesystem or the counters. -/
theorem runItems_expected_congr (cfg : Cfg) :
    ∀ (items : List MovieItem) {st st2 : PassState}, st.expected = st2.expected →
      (runItems cfg st items).expected = (runItems cfg st2 items).expected := by
  intro items
  induction items with
  | nil => intro st st2 h; exact h
  | cons m rest ih =>
    intro st st2 h
    rw [runItems_cons, runItems_cons]
    exact ih (process_expected_congr cfg h)

theorem process_expected_mono {m : MovieItem} (cfg : Cfg) (st : PassState)
    {p : List String} (h : p ∈ st.expected) :
    p ∈ (process_movie_item cfg st m).expected := by
  cases hu : truthy m.uuid with
  | none => rw [process_of_skip cfg st hu]; exact h
  | some u =>
    rw [process_expected_of_uuid cfg st hu]
    split
    · exact h
    · exact List.mem_append_left _ h

theorem runItems_expected_mono (cfg : Cfg) :
    ∀ (items : List MovieItem) (st : PassState) {p : List String},
      p ∈ st.expected → p ∈ (runItems cfg st items).expected := by
  intro items
  induction items with
  | nil => intro st p h; exact h
  | cons m rest ih =>
    intro st p h
    rw [runItems_cons]
    exact ih _ (process_expected_mono cfg st h)

/-- Every processed (non-skipped) item's marker path lands in the
expected set. -/
theorem runItems_expected_of_item (cfg : Cfg) :
    ∀ (items : List MovieItem) (st : PassState) {m : MovieItem} {u : String},
      m ∈ items → truthy m.uuid = some u →
      movie_strm_path m ∈ (runItems cfg st items).expected := by
  intro items
  induction items with
  | nil => intro st m u h _; exact absurd h (List.not_mem_nil m)
  | cons m2 rest ih =>
    intro st m u h hu
    rw [runItems_cons]
    rcases List.mem_cons.mp h with h | h
    · subst h
      refine runItems_expected_mono cfg rest _ ?_
      rw [process_expected_of_uuid cfg st hu]
      split
      case isTrue hmem => exact hmem
      case isFalse hmem => exact List.mem_append_right _ (by simp)
    · exact ih _ h hu

/-- Conversely, every path in the expected set of a fold either was
already expected or is the marker path of some processed item. -/
theorem runItems_expected_sub (cfg : Cfg) :
    ∀ (items : List MovieItem) (st : PassState) {p : List String},
      p ∈ (runItems cfg st items).expected →
      p ∈ st.expected ∨ ∃ m ∈ items, movie_strm_path m = p := by
  intro items
  induction items with
  | nil => intro st p h; exact Or.inl h
  | cons m rest ih =>
    intro st p h
    rw [runItems_cons] at h
    rcases ih _ h with h2 | ⟨m2, hm2, hp⟩
    · cases hu : truthy m.uuid with
      | none =>
        rw [process_of_skip cfg st hu] at h2
        exact Or.inl h2
      | some u =>
        rw [process_expected_of_uuid cfg st hu] at h2
        revert h2
        split
        · intro h2; exact Or.inl h2
        · intro h2
          rcases List.mem_append.mp h2 with h2 | h2
          · exact Or.inl h2
          · simp only [List.mem_singleton] at h2
            exact Or.inr ⟨m, by simp, h2.symm⟩
    · exact Or.inr ⟨m2, by simp [hm2], hp⟩

theorem lookupFile_isSome_iff {files : List FSFile} {p : List String} :
    (lookupFile files p).isSome = true ↔ HasPath files p := by
  unfold lookupFile HasPath
  simp [List.find?_isSome]

/-- Presence of a path is preserved by processing. -/
theorem runItems_hasPath_mono (cfg : Cfg) (items : List MovieItem)
    (st : PassState) {p : List String} (h : HasPath st.fs.files p) :
    HasPath (runItems cfg st items).fs.files p := by
  rw [runItems_files]
  exact hasPath_applyWrites _ h

/-- After a fold, every expected path has an entry on disk, provided the
initially expected ones already did. -/
theorem runItems_expected_hasPath (cfg : Cfg) :
    ∀ (items : List MovieItem) (st : PassState),
      (∀ p ∈ st.expected, HasPath st.fs.files p) →
      ∀ p ∈ (runItems cfg st items).expected,
        HasPath (runItems cfg st items).fs.files p := by
  intro items
  induction items with
  | nil => intro st h p hp; exact h p hp
  | cons m rest ih =>
    intro st h p hp
    rw [runItems_cons] at hp ⊢
    refine ih _ ?_ p hp
    intro q hq
    cases hu : truthy m.uuid with
    | none =>
      rw [process_of_skip cfg st hu] at hq ⊢
      exact h q hq
    | some u =>
      rw [process_expected_of_uuid cfg st hu] at hq
      rw [process_files_of_uuid cfg st hu]
      have hq2 : q ∈ st.expected ∨ q = movie_strm_path m := by
        revert hq
        split
        · intro hq; exact Or.inl hq
        · intro hq
          rcases List.mem_append.mp hq with hq | hq
          · exact Or.inl hq
          · simp only [List.mem_singleton] at hq
            exact Or.inr hq
      rcases hq2 with hq2 | hq2
      · exact hasPath_upsert_mono _ _ (h q hq2)
      · rw [hq2]
        exact hasPath_upsert_self _ _ _
    
/-- When every non-skipped item's marker path already exists on disk, the
fold adds nothing: `added` is unchanged. -/
theorem runItems_added_stable (cfg : Cfg) :
    ∀ (items : List MovieItem) (st : PassState),
      (∀ m ∈ items, ∀ u, truthy m.uuid = some u →
        HasPath st.fs.files (movie_strm_path m)) →
      (runItems cfg st items).added = st.added := by
  intro items
  induction items with
  | nil => intro st _; rfl
  | cons m rest ih =>
    intro st h
    rw [runItems_cons]
    cases hu : truthy m.uuid with
    | none =>
      rw [process_of_skip cfg st hu]
      exact ih st (fun m2 hm2 u hu2 => h m2 (by simp [hm2]) u hu2)
    | some u =>
      have hadd : (process_movie_item cfg st m).added = st.added := by
        rw [process_added_of_uuid cfg st hu]
        rw [if_pos (lookupFile_isSome_iff.mpr (h m (by simp) u hu))]
      have hfiles := process_files_of_uuid cfg st hu
      rw [← hadd]
      refine ih _ ?_
      intro m2 hm2 u2 hu2
      rw [hfiles]
      exact hasPath_upsert_mono _ _ (h m2 (by simp [hm2]) u2 hu2)

theorem runItems_dirs_mono (cfg : Cfg) :
    ∀ (items : List MovieItem) (st : PassState) {d : List String},
      d ∈ st.fs.dirs → d ∈ (runItems cfg st items).fs.dirs := by
  intro items
  induction items with
  | nil => intro st d h; exact h
  | cons m rest ih =>
    intro st d h
    rw [runItems_cons]
    refine ih _ ?_
    cases hu : truthy m.uuid with
    | none => rw [process_of_skip cfg st hu]; exact h
    | some u =>
      rw [process_dirs_of_uuid cfg st hu]
      exact mkdirP_mono _ (mkdirP_mono _ h)

/-- Directories created for a processed item are present after the fold. -/
theorem runItems_dirs_of_item (cfg : Cfg) :
    ∀ (items : List MovieItem) (st : PassState) {m : MovieItem} {u : String}
      {d : List String},
      m ∈ items → truthy m.uuid = some u →
      d ∈ ancestorsOf ((movie_strm_path m).dropLast) →
      d ∈ (runItems cfg st items).fs.dirs := by
  intro items
  induction items with
  | nil => intro st m u d h _ _; exact absurd h (List.not_mem_nil m)
  | cons m2 rest ih =>
    intro st m u d h hu hd
    rw [runItems_cons]
    rcases List.mem_cons.mp h with h | h
    · subst h
      refine runItems_dirs_mono cfg rest _ ?_
      rw [process_dirs_of_uuid cfg st hu]
      exact mem_mkdirP_ancestor hd
    · exact ih _ h hu hd

/-- When every directory any processed item needs is already present, the
fold leaves the directory list untouched. -/
theorem runItems_dirs_fixed (cfg : Cfg) :
    ∀ (items : List MovieItem) (st : PassState),
      (∀ m ∈ items, ∀ u, truthy m.uuid = some u →
        ∀ d ∈ ancestorsOf ((movie_strm_path m).dropLast), d ∈ st.fs.dirs) →
      (runItems cfg st items).fs.dirs = st.fs.dirs := by
  intro items
  induction items with
  | nil => intro st _; rfl
  | cons m rest ih =>
    intro st h
    rw [runItems_cons]
    cases hu : truthy m.uuid with
    | none =>
      rw [process_of_skip cfg st hu]
      exact ih st (fun m2 hm2 u hu2 => h m2 (by simp [hm2]) u hu2)
    | some u =>
      have hdirs : (process_movie_item cfg st m).fs.dirs = st.fs.dirs := by
        rw [process_dirs_of_uuid cfg st hu]
        rw [dropLast_movie_strm_path]
        rw [mkdirP_of_all_mem (fun d hd => h m (by simp) u hu d
          (by rw [dropLast_movie_strm_path]; exact hd))]
        rw [mkdirP_of_all_mem (fun d hd => h m (by simp) u hu d
          (by rw [dropLast_movie_strm_path]; exact hd))]
      rw [← hdirs]
      refine ih _ ?_
      intro m2 hm2 u2 hu2 d hd
      rw [hdirs]
      exact h m2 (by simp [hm2]) u2 hu2 d hd

/-! ## Proof layer: marker names and the cleanup phase -/

/-- Whether a path's final component matches the cleanup glob `*.strm`. -/
def pathIsStrm (p : List String) : Bool :=
  match p.getLast? with
  | some n => decide (".strm".data <:+ n.data)
  | none => false

theorem fileIsStrm_eq (f : FSFile) : fileIsStrm f = pathIsStrm f.path := rfl

theorem pathIsStrm_movie (m : MovieItem) : pathIsStrm (movie_strm_path m) = true := by
  have h : (movie_strm_path m).getLast? = some (movieFolderName m ++ ".strm") := rfl
  unfold pathIsStrm
  rw [h]
  simp only [decide_eq_true_eq]
  rw [String.data_append]
  exact List.suffix_append _ _

theorem cleanupRoot_false (E : List (List String)) (fs : FS) :
    cleanupRoot false E fs = (fs, 0) := rfl

theorem cleanupRoot_true_files (E : List (List String)) (fs : FS) :
    (cleanupRoot true E fs).1.files =
      fs.files.filter (fun f => !(fileIsStrm f && !(decide (f.path ∈ E)))) := rfl

theorem cleanupRoot_true_dirs (E : List (List String)) (fs : FS) :
    (cleanupRoot true E fs).1.dirs =
      fs.dirs.filter (fun d => (cleanupRoot true E fs).1.files.any
        (fun f => decide (d <+: f.path) && decide (d ≠ f.path))) := rfl

theorem cleanupRoot_true_count (E : List (List String)) (fs : FS) :
    (cleanupRoot true E fs).2 =
      (fs.files.filter (fun f => fileIsStrm f && !(decide (f.path ∈ E)))).length := rfl

/-- Files that are not stale markers survive cleanup. -/
theorem mem_cleanup_of_keep {del : Bool} {E : List (List String)} {fs : FS}
    {f : FSFile} (hf : f ∈ fs.files)
    (h : fileIsStrm f = false ∨ f.path ∈ E) :
    f ∈ (cleanupRoot del E fs).1.files := by
  cases del with
  | false => rw [cleanupRoot_false]; exact hf
  | true =>
    rw [cleanupRoot_true_files]
    refine List.mem_filter.mpr ⟨hf, ?_⟩
    rcases h with h | h <;> simp [h]

theorem mem_cleanup_sub {del : Bool} {E : List (List String)} {fs : FS}
    {f : FSFile} (h : f ∈ (cleanupRoot del E fs).1.files) : f ∈ fs.files := by
  cases del with
  | false => rw [cleanupRoot_false] at h; exact h
  | true =>
    rw [cleanupRoot_true_files] at h
    exact List.mem_of_mem_filter h

/-- A marker that survives an enabled cleanup is expected. -/
theorem mem_cleanup_strm_expected {E : List (List String)} {fs : FS}
    {f : FSFile} (h : f ∈ (cleanupRoot true E fs).1.files)
    (hstrm : fileIsStrm f = true) : f.path ∈ E := by
  rw [cleanupRoot_true_files] at h
  have := (List.mem_filter.mp h).2
  simp [hstrm] at this
  exact this

/-- A directory with a surviving file strictly beneath it survives the
prune. -/
theorem mem_cleanup_dirs {del : Bool} {E : List (List String)} {fs : FS}
    {d : List String} (hd : d ∈ fs.dirs)
    (h : ∃ f ∈ (cleanupRoot del E fs).1.files, d <+: f.path ∧ d ≠ f.path) :
    d ∈ (cleanupRoot del E fs).1.dirs := by
  cases del with
  | false => rw [cleanupRoot_false]; exact hd
  | true =>
    rw [cleanupRoot_true_dirs]
    obtain ⟨f, hf, h1, h2⟩ := h
    refine List.mem_filter.mpr ⟨hd, List.any_eq_true.mpr ⟨f, hf, ?_⟩⟩
    simp [h1, h2]

/-- Cleanup on a state with no stale markers and no prunable directory is
the identity and unlinks nothing. -/
theorem cleanupRoot_fixed {del : Bool} {E : List (List String)} {fs : FS}
    (h1 : ∀ f ∈ fs.files, fileIsStrm f = true → f.path ∈ E)
    (h2 : del = true → ∀ d ∈ fs.dirs,
      fs.files.any (fun f => decide (d <+: f.path) && decide (d ≠ f.path)) = true) :
    cleanupRoot del E fs = (fs, 0) := by
  cases del with
  | false => exact cleanupRoot_false E fs
  | true =>
    have hfiles : fs.files.filter
        (fun f => !(fileIsStrm f && !(decide (f.path ∈ E)))) = fs.files := by
      rw [List.filter_eq_self]
      intro f hf
      by_cases hs : fileIsStrm f = true
      · simp [hs, h1 f hf hs]
      · simp only [Bool.not_eq_true] at hs
        simp [hs]
    have hcount : fs.files.filter
        (fun f => fileIsStrm f && !(decide (f.path ∈ E))) = [] := by
      rw [List.filter_eq_nil_iff]
      intro f hf
      by_cases hs : fileIsStrm f = true
      · simp [hs, h1 f hf hs]
      · simp only [Bool.not_eq_true] at hs
        simp [hs]
    show (⟨fs.files.filter _, fs.dirs.filter _⟩, (fs.files.filter _).length) = (fs, 0)
    rw [hcount, hfiles, List.filter_eq_self.mpr (h2 rfl)]
    rfl

theorem fs_eq_of_parts {a b : FS} (hf : a.files = b.files) (hd : a.dirs = b.dirs) :
    a = b := by
  cases a; cases b
  cases hf; cases hd
  rfl

theorem movieWrite_some_inv {cfg : Cfg} {m : MovieItem} {w : List String × String}
    (h : movieWrite cfg m = some w) :
    ∃ u, truthy m.uuid = some u ∧ w.1 = movie_strm_path m := by
  unfold movieWrite at h
  cases hu : truthy m.uuid with
  | none => rw [hu] at h; cases h
  | some u =>
    rw [hu] at h
    injection h with h
    exact ⟨u, rfl, by rw [← h]⟩

theorem movieWrites_pathIsStrm {cfg : Cfg} {items : List MovieItem}
    {w : List String × String} (h : w ∈ movieWrites cfg items) :
    pathIsStrm w.1 = true := by
  obtain ⟨m, _, hmw⟩ := List.mem_filterMap.mp h
  obtain ⟨u, _, hw1⟩ := movieWrite_some_inv hmw
  rw [hw1]
  exact pathIsStrm_movie m

theorem mem_applyWrites_of_unwritten {ws : List (List String × String)} :
    ∀ {l : List FSFile} {f : FSFile}, f ∈ l → (∀ w ∈ ws, w.1 ≠ f.path) →
      f ∈ applyWrites ws l := by
  induction ws with
  | nil => intro l f hf _; exact hf
  | cons w ws ih =>
    intro l f hf h
    rw [applyWrites_cons]
    exact ih (mem_upsert_of_not_strmPath _ _ hf (fun h2 => h w (by simp) h2.symm))
      (fun w2 hw2 => h w2 (by simp [hw2]))

theorem ancestor_proper (m : MovieItem) {d : List String}
    (h : d ∈ ancestorsOf ((movie_strm_path m).dropLast)) :
    d <+: movie_strm_path m ∧ d ≠ movie_strm_path m := by
  have hanc : ancestorsOf ((movie_strm_path m).dropLast) =
      [[movieCategory m], [movieCategory m, movieFolderName m]] := rfl
  rw [hanc] at h
  rcases List.mem_cons.mp h with h | h
  · subst h
    refine ⟨⟨[movieFolderName m, movieFolderName m ++ ".strm"], rfl⟩, ?_⟩
    intro h2
    have := congrArg List.length h2
    simp [movie_strm_path] at this
  · simp only [List.mem_singleton] at h
    subst h
    refine ⟨⟨[movieFolderName m ++ ".strm"], rfl⟩, ?_⟩
    intro h2
    have := congrArg List.length h2
    simp [movie_strm_path] at this

/-! ## Claim theorems -/

/-- C2: for every pass with destructive cleanup enabled, after the
Cleaning phase the set of marker (`*.strm`) files on disk under the root
equals the ExpectedSet accumulated during processing, and no expected
path is ever deleted (every expected path still has its entry on disk). -/
theorem c2_cleanup_safety (cfg : Cfg) (items : List MovieItem) (fs0 : FS)
    (h : cfg.deleteOld = true) :
    (∀ p : List String,
      (∃ f, f ∈ (export_movies_pass cfg items fs0).fs.files ∧
          f.path = p ∧ fileIsStrm f = true) ↔
        p ∈ (export_movies_pass cfg items fs0).expected) ∧
    (∀ p ∈ (export_movies_pass cfg items fs0).expected,
      ∃ f, f ∈ (export_movies_pass cfg items fs0).fs.files ∧ f.path = p) := by
  have hexp : (export_movies_pass cfg items fs0).expected =
      (runItems cfg ⟨fs0, [], 0, 0, 0⟩ items).expected := rfl
  have hfs : (export_movies_pass cfg items fs0).fs =
      (cleanupRoot cfg.deleteOld (runItems cfg ⟨fs0, [], 0, 0, 0⟩ items).expected
        (runItems cfg ⟨fs0, [], 0, 0, 0⟩ items).fs).1 := rfl
  rw [hexp, hfs, h]
  have hstrm : ∀ p ∈ (runItems cfg ⟨fs0, [], 0, 0, 0⟩ items).expected,
      pathIsStrm p = true := by
    intro p hp
    rcases runItems_expected_sub cfg items _ hp with h2 | ⟨m, _, hm⟩
    · exact absurd h2 (List.not_mem_nil p)
    · rw [← hm]
      exact pathIsStrm_movie m
  have hpresent : ∀ p ∈ (runItems cfg ⟨fs0, [], 0, 0, 0⟩ items).expected,
      HasPath (runItems cfg ⟨fs0, [], 0, 0, 0⟩ items).fs.files p :=
    runItems_expected_hasPath cfg items _ (fun p hp => absurd hp (List.not_mem_nil p))
  constructor
  · intro p
    constructor
    · rintro ⟨f, hf, hfp, hstrmf⟩
      rw [← hfp]
      exact mem_cleanup_strm_expected hf hstrmf
    · intro hp
      obtain ⟨f, hf, hfp⟩ := hpresent p hp
      refine ⟨f, mem_cleanup_of_keep hf (Or.inr (by rw [hfp]; exact hp)), hfp, ?_⟩
      rw [fileIsStrm_eq, hfp]
      exact hstrm p hp
  · intro p hp
    obtain ⟨f, hf, hfp⟩ := hpresent p hp
    exact ⟨f, mem_cleanup_of_keep hf (Or.inr (by rw [hfp]; exact hp)), hfp⟩

/-- C10: the Cleaning phase only unlinks marker (`*.strm`) files: a full
pass never deletes a sidecar file (any file whose name does not end in
`.strm`), and the empty-directory prune never removes a directory that
still holds such a sidecar beneath it. -/
theorem c10_sidecar_frame (cfg : Cfg) (items : List MovieItem) (fs0 : FS) :
    (∀ f ∈ fs0.files, fileIsStrm f = false →
      f ∈ (export_movies_pass cfg items fs0).fs.files) ∧
    (∀ d ∈ fs0.dirs,
      (∃ f, f ∈ fs0.files ∧ fileIsStrm f = false ∧ d <+: f.path ∧ d ≠ f.path) →
      d ∈ (export_movies_pass cfg items fs0).fs.dirs) := by
  have hsurv : ∀ f ∈ fs0.files, fileIsStrm f = false →
      f ∈ (export_movies_pass cfg items fs0).fs.files := by
    intro f hf hns
    have h1 : f ∈ (runItems cfg ⟨fs0, [], 0, 0, 0⟩ items).fs.files := by
      rw [runItems_files cfg items]
      refine mem_applyWrites_of_unwritten hf ?_
      intro w hw heq
      have h2 := movieWrites_pathIsStrm hw
      rw [heq] at h2
      rw [fileIsStrm_eq] at hns
      rw [hns] at h2
      cases h2
    exact mem_cleanup_of_keep h1 (Or.inl hns)
  refine ⟨hsurv, ?_⟩
  intro d hd h
  obtain ⟨f, hf, hns, hpref, hne⟩ := h
  have hd1 : d ∈ (runItems cfg ⟨fs0, [], 0, 0, 0⟩ items).fs.dirs :=
    runItems_dirs_mono cfg items _ hd
  exact mem_cleanup_dirs hd1 ⟨f, hsurv f hf hns, hpref, hne⟩

/-- C3: running the pass twice with an unchanged listing is idempotent:
the second run adds zero markers, removes zero markers, reports the same
active count, and leaves the filesystem (file contents and directories)
identical to the state after the first run. -/
theorem c3_idempotent (cfg : Cfg) (items : List MovieItem) (fs0 : FS) :
    (export_movies_pass cfg items (export_movies_pass cfg items fs0).fs).added = 0 ∧
    (export_movies_pass cfg items (export_movies_pass cfg items fs0).fs).removedActual = 0 ∧
    (export_movies_pass cfg items (export_movies_pass cfg items fs0).fs).active =
      (export_movies_pass cfg items fs0).active ∧
    (export_movies_pass cfg items (export_movies_pass cfg items fs0).fs).fs =
      (export_movies_pass cfg items fs0).fs := by
  set st1 := runItems cfg ⟨fs0, [], 0, 0, 0⟩ items with hst1
  set E := st1.expected with hE
  set B := (cleanupRoot cfg.deleteOld E st1.fs).1 with hB
  have r1fs : (export_movies_pass cfg items fs0).fs = B := rfl
  rw [r1fs]
  set st2 := runItems cfg ⟨B, [], 0, 0, 0⟩ items with hst2
  have hE2 : st2.expected = E := runItems_expected_congr cfg items rfl
  have hpresent1 : ∀ p ∈ E, HasPath st1.fs.files p :=
    runItems_expected_hasPath cfg items _ (fun p hp => absurd hp (List.not_mem_nil p))
  have hpresentB : ∀ p ∈ E, HasPath B.files p := by
    intro p hp
    obtain ⟨f, hf, hfp⟩ := hpresent1 p hp
    exact ⟨f, mem_cleanup_of_keep hf (Or.inr (by rw [hfp]; exact hp)), hfp⟩
  have hkeys : ∀ w ∈ movieWrites cfg items, w.1 ∈ E := by
    intro w hw
    obtain ⟨m, hm, hmw⟩ := List.mem_filterMap.mp hw
    obtain ⟨u, hu, hw1⟩ := movieWrite_some_inv hmw
    rw [hw1]
    exact runItems_expected_of_item cfg items _ hm hu
  have hfixB : ∀ f ∈ B.files, ∀ c,
      lastWrite (movieWrites cfg items) f.path = some c → f.content = c := by
    intro f hf c hc
    have hf1 : f ∈ st1.fs.files := mem_cleanup_sub hf
    rw [hst1, runItems_files cfg items] at hf1
    exact (mem_applyWrites hf1).1 c hc
  have hfiles2 : st2.fs.files = B.files := by
    rw [hst2, runItems_files cfg items]
    exact applyWrites_fixed (fun w hw => hpresentB w.1 (hkeys w hw)) hfixB
  have hanc : ∀ m ∈ items, ∀ u, truthy m.uuid = some u →
      ∀ d ∈ ancestorsOf ((movie_strm_path m).dropLast), d ∈ B.dirs := by
    intro m hm u hu d hd
    have hd1 : d ∈ st1.fs.dirs := runItems_dirs_of_item cfg items _ hm hu hd
    have hp : movie_strm_path m ∈ E := runItems_expected_of_item cfg items _ hm hu
    obtain ⟨f, hf, hfp⟩ := hpresentB _ hp
    obtain ⟨hpref, hne⟩ := ancestor_proper m hd
    exact mem_cleanup_dirs hd1 ⟨f, hf, by rw [hfp]; exact hpref, by rw [hfp]; exact hne⟩
  have hdirs2 : st2.fs.dirs = B.dirs := by
    rw [hst2]
    exact runItems_dirs_fixed cfg items _ (fun m hm u hu d hd => hanc m hm u hu d hd)
  have hfs2 : st2.fs = B := fs_eq_of_parts hfiles2 hdirs2
  have hadded2 : st2.added = 0 := by
    rw [hst2]
    exact runItems_added_stable cfg items _ (fun m hm u hu =>
      hpresentB _ (runItems_expected_of_item cfg items _ hm hu))
  have hclean2 : cleanupRoot cfg.deleteOld st2.expected st2.fs = (st2.fs, 0) := by
    cases hdel : cfg.deleteOld with
    | false => exact cleanupRoot_false _ _
    | true =>
      have hBtrue : B = (cleanupRoot true E st1.fs).1 := by rw [hB, hdel]
      apply cleanupRoot_fixed
      · intro f hf hstrm
        rw [hE2]
        rw [hfs2, hBtrue] at hf
        exact mem_cleanup_strm_expected hf hstrm
      · intro _ d hd
        rw [hfs2, hBtrue] at hd ⊢
        rw [cleanupRoot_true_dirs] at hd
        exact (List.mem_filter.mp hd).2
  refine ⟨?_, ?_, ?_, ?_⟩
  · show st2.added = 0
    exact hadded2
  · show (cleanupRoot cfg.deleteOld st2.expected st2.fs).2 = 0
    rw [hclean2]
  · show st2.expected.length = E.length
    rw [hE2]
  · show (cleanupRoot cfg.deleteOld st2.expected st2.fs).1 = B
    rw [hclean2]
    exact hfs2

def c1cfg : Cfg := ⟨"127.0.0.1:9191", true⟩

def c1fs : FS :=
  ⟨[⟨["Cat", "Old", "Old.strm"], "http://127.0.0.1:9191/proxy/vod/movie/old\n"⟩],
   [["Cat"], ["Cat", "Old"]]⟩

/-- C1 counterexample: with destructive cleanup enabled, a cache-absent
pass whose listing fails at page 1 (zero rows retrieved) still deletes
the pre-existing marker under the root, contradicting the claim that no
marker is deleted in that situation. -/
theorem c1_counterexample :
    lookupFile c1fs.files ["Cat", "Old", "Old.strm"] =
      some "http://127.0.0.1:9191/proxy/vod/movie/old\n" ∧
    c1cfg.deleteOld = true ∧
    (export_movies_for_account c1cfg none (fun _ => none) 5 c1fs).fs.files = [] := by
  decide

/-- C1 amended: cleanup is not suppressed on listing failure.  When the
movie listing fails at the first page with no cache available, the pass
still runs the Cleaning phase against the empty expected set, so with
destructive cleanup enabled no marker file survives under the root. -/
theorem c1_amended (cfg : Cfg) (fs0 : FS)
    (fetch : Nat → Option (PageData MovieItem)) (fuel : Nat)
    (hdel : cfg.deleteOld = true) (hfail : fetch 1 = none) :
    (export_movies_for_account cfg none fetch fuel fs0).fs.files.filter
      (fun f => fileIsStrm f) = [] := by
  have hlist : movies_listing fetch fuel = [] := by
    cases fuel with
    | zero => rfl
    | succ n =>
      unfold movies_listing movies_fetch_go
      rw [hfail]
  have hexp : export_movies_for_account cfg none fetch fuel fs0 =
      export_movies_pass cfg [] fs0 := by
    unfold export_movies_for_account
    rw [hlist]
  rw [hexp]
  rw [List.filter_eq_nil_iff]
  intro f hf
  have hfs : (export_movies_pass cfg [] fs0).fs =
      (cleanupRoot cfg.deleteOld [] fs0).1 := rfl
  rw [hfs, hdel, cleanupRoot_true_files] at hf
  have h2 := (List.mem_filter.mp hf).2
  simp at h2
  simp [h2]

theorem c1_witness :
    (export_movies_for_account ⟨"h", true⟩ none (fun _ => none) 3
      ⟨[⟨["C", "T", "T.strm"], "u\n"⟩], [["C"], ["C", "T"]]⟩).fs.files.filter
      (fun f => fileIsStrm f) = [] :=
  c1_amended _ _ _ _ rfl rfl

def c4cfg : Cfg := ⟨"127.0.0.1:9191", true⟩

def c4movie : MovieItem :=
  ⟨some 1, some "abc123", some "Movie.Name.[1080p].(2023)", none, some 2023,
   some "Action", none, none, none, none, none, none⟩

/-- C4 counterexample: `clean_title` strips the `[1080p]` tag and the
trailing `(2023)` but never converts dots to spaces, so the cleaned title
is `"Movie.Name.."`, not `"Movie Name"`; the pass produces no marker at
the claimed path `Action/Movie Name (2023)/Movie Name (2023).strm`. -/
theorem c4_counterexample :
    clean_title "Movie.Name.[1080p].(2023)" = "Movie.Name.." ∧
    lookupFile (export_movies_pass c4cfg [c4movie] ⟨[], []⟩).fs.files
      ["Action", "Movie Name (2023)", "Movie Name (2023).strm"] = none := by
  decide

/-- C4 amended: the pass produces exactly one marker, at relative path
`Action/Movie.Name.. (2023)/Movie.Name.. (2023).strm`, containing the
single line with the playback URL built from the movie's uuid. -/
theorem c4_amended :
    (export_movies_pass c4cfg [c4movie] ⟨[], []⟩).fs.files =
      [⟨["Action", "Movie.Name.. (2023)", "Movie.Name.. (2023).strm"],
        "http://127.0.0.1:9191/proxy/vod/movie/abc123\n"⟩] ∧
    (export_movies_pass c4cfg [c4movie] ⟨[], []⟩).expected =
      [["Action", "Movie.Name.. (2023)", "Movie.Name.. (2023).strm"]] := by
  decide

/-- C5 counterexample: for season 0, episode 0 the filename base still has
the title appended (`"S00 - Pilot"`), not the bare `"S00"` the claim
states. -/
theorem c5_counterexample :
    episode_filename_base 0 0 "Pilot" = "S00 - Pilot" ∧
    episode_filename_base 0 0 "Pilot" ≠ "S00" := by
  decide

theorem shorten_component_of_le (name : String) (limit : Nat)
    (hs : sanitize name = name) (hl : name.length ≤ limit) :
    shorten_component name limit = name := by
  unfold shorten_component
  dsimp only
  rw [hs]
  rw [if_pos (show name.data.length ≤ limit from hl)]

/-- C5 amended: the episode filename base is
`"S{s:02}E{e:02} - t"` when the episode number is nonzero and
`"S{s:02} - t"` when it is zero — the `E` part is dropped but the title is
always appended — provided the assembled name is sanitize-invariant and
within the 80-character bound (otherwise `shorten_component` rewrites it). -/
theorem c5_amended (season ep_num : Nat) (t : String)
    (hs : sanitize (episode_code season ep_num ++ " - " ++ t) =
      episode_code season ep_num ++ " - " ++ t)
    (hl : (episode_code season ep_num ++ " - " ++ t).length ≤ 80) :
    episode_filename_base season ep_num t =
      episode_code season ep_num ++ " - " ++ t ∧
    (ep_num = 0 →
      episode_filename_base season ep_num t = "S" ++ pad2 season ++ " - " ++ t) := by
  have h1 : episode_filename_base season ep_num t =
      episode_code season ep_num ++ " - " ++ t := by
    unfold episode_filename_base
    exact shorten_component_of_le _ 80 hs hl
  refine ⟨h1, ?_⟩
  intro h0
  rw [h1]
  unfold episode_code
  rw [if_neg (by simp [h0])]

theorem c5_witness :
    episode_filename_base 3 12 "Pilot" = episode_code 3 12 ++ " - " ++ "Pilot" ∧
    (12 = 0 →
      episode_filename_base 3 12 "Pilot" = "S" ++ pad2 3 ++ " - " ++ "Pilot") :=
  c5_amended 3 12 "Pilot" (by decide) (by decide)

/-- C8: the canonical path mapping is deterministic: items agreeing on
category, cleaned title and year map to the same path; in particular the
external-metadata id (`tmdb_id`) does not influence the path. -/
theorem c8_path_deterministic (m1 m2 : MovieItem)
    (hc : get_category m1 = get_category m2)
    (ht : clean_title (movieResolvedName m1) = clean_title (movieResolvedName m2))
    (hy : m1.year = m2.year) :
    movie_strm_path m1 = movie_strm_path m2 := by
  unfold movie_strm_path movieCategory movieFolderName
  rw [hc, ht, hy]

def c8a : MovieItem :=
  ⟨some 1, some "u1", some "Same Movie", none, some 2020, some "Drama",
   none, none, none, none, none, some "111"⟩

def c8b : MovieItem :=
  ⟨some 1, some "u1", some "Same Movie", none, some 2020, some "Drama",
   none, none, none, none, none, some "222"⟩

theorem c8_witness : movie_strm_path c8a = movie_strm_path c8b :=
  c8_path_deterministic c8a c8b rfl rfl rfl

def c9cfg : Cfg := ⟨"127.0.0.1:9191", true⟩

def c9fs : FS :=
  ⟨[⟨["Drama", "Stale", "Stale.strm"], "http://127.0.0.1:9191/proxy/vod/movie/zzz\n"⟩],
   [["Drama"], ["Drama", "Stale"]]⟩

/-- C9: the movies pass deletes one stale marker during Cleaning, yet the
Done summary (line 837 of `vod_export.py`) emits `0` for "removed": the
f-string interpolates the literal `{0}` instead of the `removed`
variable, so the emitted removed count never equals the actual number of
deletions when any deletion occurred. -/
theorem c9_movies_removed_mismatch :
    (export_movies_pass c9cfg [] c9fs).removedActual = 1 ∧
    (export_movies_pass c9cfg [] c9fs).reportedRemoved = 0 := by
  decide

def c2cfg : Cfg := ⟨"h", true⟩

def c2movie : MovieItem :=
  ⟨some 1, some "u1", some "Title", none, none, some "Cat",
   none, none, none, none, none, none⟩

def c2fs : FS := ⟨[⟨["Cat", "Stale", "Stale.strm"], "x\n"⟩], [["Cat"], ["Cat", "Stale"]]⟩

theorem c2_witness :
    (∀ p : List String,
      (∃ f, f ∈ (export_movies_pass c2cfg [c2movie] c2fs).fs.files ∧
          f.path = p ∧ fileIsStrm f = true) ↔
        p ∈ (export_movies_pass c2cfg [c2movie] c2fs).expected) ∧
    (∀ p ∈ (export_movies_pass c2cfg [c2movie] c2fs).expected,
      ∃ f, f ∈ (export_movies_pass c2cfg [c2movie] c2fs).fs.files ∧ f.path = p) :=
  c2_cleanup_safety c2cfg [c2movie] c2fs rfl

def c10cfg : Cfg := ⟨"h", true⟩

def c10sidecar : FSFile := ⟨["Cat", "Old", "Old.nfo"], "<movie/>"⟩

def c10fs : FS :=
  ⟨[c10sidecar, ⟨["Cat", "Old", "Old.strm"], "u\n"⟩], [["Cat"], ["Cat", "Old"]]⟩

theorem c10_witness :
    c10sidecar ∈ (export_movies_pass c10cfg [] c10fs).fs.files ∧
    ["Cat", "Old"] ∈ (export_movies_pass c10cfg [] c10fs).fs.dirs :=
  ⟨(c10_sidecar_frame c10cfg [] c10fs).1 c10sidecar (by decide) (by decide),
   (c10_sidecar_frame c10cfg [] c10fs).2 ["Cat", "Old"] (by decide)
     ⟨c10sidecar, by decide, by decide, by decide, by decide⟩⟩

/-! ## C6: shorten_component length behaviour -/

theorem length_dropWhile_le {α : Type} (p : α → Bool) :
    ∀ l : List α, (l.dropWhile p).length ≤ l.length := by
  intro l
  induction l with
  | nil => exact Nat.le_refl _
  | cons a l ih =>
    rw [List.dropWhile_cons]
    split
    · exact Nat.le_trans ih (Nat.le_succ _)
    · exact Nat.le_refl _

theorem rstripChars_length_le (l : List Char) :
    (rstripChars l).length ≤ l.length := by
  unfold rstripChars
  rw [List.length_reverse]
  refine Nat.le_trans (length_dropWhile_le _ _) ?_
  rw [List.length_reverse]

def c6spacey : String := ⟨List.replicate 69 'a' ++ [' '] ++ List.replicate 20 'b'⟩

/-- C6 counterexample: at the default limit 80, a sanitized 90-character
input whose 70-character kept prefix ends in a space yields an output of
length 79, not exactly 80 (the prefix is right-stripped); and at limit 5
the input `"abcdef"` yields a 10-character output, exceeding the limit. -/
theorem c6_counterexample :
    sanitize c6spacey = c6spacey ∧ 80 < c6spacey.length ∧
    (shorten_component c6spacey 80).length = 79 ∧
    (shorten_component "abcdef" 5).length = 10 := by
  decide

/-- C6 amended: for limits of at least 10 the output never exceeds the
limit; for a sanitized input strictly longer than the limit the output
length equals the limit exactly when the kept `limit - 10` prefix carries
no trailing whitespace (right-stripping can otherwise make it shorter);
the function is pure, so stability across calls is immediate. -/
theorem c6_amended (s : String) (limit : Nat) (h10 : 10 ≤ limit) :
    (shorten_component s limit).length ≤ limit ∧
    (sanitize s = s → limit < s.length →
      rstripChars (pySliceTo s.data ((limit : Int) - 10)) =
        pySliceTo s.data ((limit : Int) - 10) →
      (shorten_component s limit).length = limit) := by
  have htoNat : ((limit : Int) - 10).toNat = limit - 10 := by omega
  have hnonneg : (0 : Int) ≤ (limit : Int) - 10 := by omega
  constructor
  · unfold shorten_component
    dsimp only
    split
    case isTrue h => exact h
    case isFalse h =>
      show (rstripChars (pySliceTo (sanitize s).data ((limit : Int) - 10)) ++
        "...".data ++ pyLastN (sanitize s).data 7).length ≤ limit
      rw [List.length_append, List.length_append]
      have h1 : (rstripChars (pySliceTo (sanitize s).data ((limit : Int) - 10))).length ≤
          limit - 10 := by
        refine Nat.le_trans (rstripChars_length_le _) ?_
        unfold pySliceTo
        rw [if_pos hnonneg, List.length_take, htoNat]
        exact Nat.min_le_left _ _
      have h2 : (pyLastN (sanitize s).data 7).length ≤ 7 := by
        unfold pyLastN
        rw [List.length_drop]
        omega
      have h3 : ("...".data).length = 3 := rfl
      omega
  · intro hsan hlen hfix
    unfold shorten_component
    dsimp only
    rw [hsan]
    rw [if_neg (show ¬ (s.data.length ≤ limit) from by
      have hsl : s.length = s.data.length := rfl
      omega)]
    show (rstripChars (pySliceTo s.data ((limit : Int) - 10)) ++
      "...".data ++ pyLastN s.data 7).length = limit
    rw [hfix]
    rw [List.length_append, List.length_append]
    have hslen : limit < s.data.length := hlen
    have h1 : (pySliceTo s.data ((limit : Int) - 10)).length = limit - 10 := by
      unfold pySliceTo
      rw [if_pos hnonneg, List.length_take, htoNat]
      omega
    have h2 : (pyLastN s.data 7).length = 7 := by
      unfold pyLastN
      rw [List.length_drop]
      omega
    have h3 : ("...".data).length = 3 := rfl
    omega

def c6long : String := ⟨List.replicate 100 'a'⟩

theorem c6_witness : 10 ≤ 80 ∧ (shorten_component c6long 80).length = 80 :=
  ⟨by decide, (c6_amended c6long 80 (by decide)).2 (by decide) (by decide) (by decide)⟩

/-! ## C7: pagination termination and partial results -/

def rowsOf {α : Type} (fetch : Nat → Option (PageData α)) (p : Nat) : List α :=
  match fetch p with
  | some d => pageRows d
  | none => []

/-- Concatenation of the rows of pages `start, start+1, …, start+n-1`. -/
def concatPages {α : Type} (fetch : Nat → Option (PageData α)) :
    Nat → Nat → List α
  | _, 0 => []
  | start, n + 1 => rowsOf fetch start ++ concatPages fetch (start + 1) n

/-- Page `p` succeeds as a dict response with a full row list and a truthy
`next`. -/
def pageIsFullNext {α : Type} (fetch : Nat → Option (PageData α))
    (pageSize p : Nat) : Prop :=
  ∃ rows, fetch p = some (.dictResults rows true) ∧ rows.length = pageSize

/-- The terminality clause of claim C7 as stated: a page is terminal
exactly on a short page, an exhausted `next`, or a failure — so if pages
`1..N` are full with `next` set and page `N+1` fails, pagination must
return exactly the rows of pages `1..N`, for every `max_pages` value. -/
def C7TerminalOnlyAtBoundary : Prop :=
  ∀ (fetch : Nat → Option (PageData Nat)) (pageSize maxPages N : Nat),
    0 < pageSize →
    (∀ p, 1 ≤ p → p ≤ N → pageIsFullNext fetch pageSize p) →
    fetch (N + 1) = none →
    api_paginate fetch pageSize maxPages = concatPages fetch 1 N

def c7fetch : Nat → Option (PageData Nat) := fun p =>
  if p ≤ 3 then some (.dictResults [p] true) else none

/-- C7 counterexample: with three full pages carrying `next` and
`max_pages = 2`, `api_paginate` stops after page 2 — a page that was
full, signalled a next page, and did not fail — so the claim's "terminal
exactly when" is false: the `max_pages` cap is a fourth termination
cause. -/
theorem c7_counterexample : ¬ C7TerminalOnlyAtBoundary := by
  intro h
  have h2 := h c7fetch 1 2 3 (by decide)
    (fun p _ hp3 => ⟨[p], by simp [c7fetch, hp3], rfl⟩) (by decide)
  exact absurd h2 (by decide)

theorem api_go_fail {α : Type} (fetch : Nat → Option (PageData α))
    (pageSize maxPages : Nat) {page : Nat} (fuel : Nat) (acc : List α)
    (h : fetch page = none) :
    api_paginate_go fetch pageSize maxPages (fuel + 1) page acc = acc := by
  unfold api_paginate_go
  rw [h]

theorem api_go_short {α : Type} (fetch : Nat → Option (PageData α))
    (pageSize maxPages : Nat) {page : Nat} {rows : List α} {nxt : Bool}
    (fuel : Nat) (acc : List α)
    (hfetch : fetch page = some (.dictResults rows nxt))
    (hne : rows ≠ []) (hshort : rows.length < pageSize) :
    api_paginate_go fetch pageSize maxPages (fuel + 1) page acc = acc ++ rows := by
  unfold api_paginate_go
  rw [hfetch]
  simp [pageRows, hne, hshort]

theorem api_go_full_step {α : Type} (fetch : Nat → Option (PageData α))
    (pageSize maxPages : Nat) {page : Nat} {rows : List α}
    (fuel : Nat) (acc : List α)
    (hfetch : fetch page = some (.dictResults rows true))
    (hlen : rows.length = pageSize) (hps : 0 < pageSize)
    (hcap : page + 1 ≤ maxPages) :
    api_paginate_go fetch pageSize maxPages (fuel + 1) page acc =
      api_paginate_go fetch pageSize maxPages fuel (page + 1) (acc ++ rows) := by
  conv_lhs => unfold api_paginate_go
  rw [hfetch]
  have hne : rows ≠ [] := by
    intro h
    subst h
    simp at hlen
    omega
  simp [pageRows, hne, hlen, Nat.lt_irrefl, Nat.not_lt.mpr hcap]

theorem api_go_cap_step {α : Type} (fetch : Nat → Option (PageData α))
    (pageSize maxPages : Nat) {page : Nat} {rows : List α}
    (fuel : Nat) (acc : List α)
    (hfetch : fetch page = some (.dictResults rows true))
    (hlen : rows.length = pageSize) (hps : 0 < pageSize)
    (hcap : maxPages < page + 1) :
    api_paginate_go fetch pageSize maxPages (fuel + 1) page acc = acc ++ rows := by
  unfold api_paginate_go
  rw [hfetch]
  have hne : rows ≠ [] := by
    intro h
    subst h
    simp at hlen
    omega
  simp [pageRows, hne, hlen, Nat.lt_irrefl, hcap]

/-- Running through `N` consecutive full-with-next pages accumulates their
rows and moves the loop to the following page. -/
theorem api_go_full {α : Type} (fetch : Nat → Option (PageData α))
    (pageSize maxPages : Nat) (hps : 0 < pageSize) :
    ∀ (N page fuel : Nat) (acc : List α),
      (∀ i, i < N → pageIsFullNext fetch pageSize (page + i)) →
      page + N ≤ maxPages → N ≤ fuel →
      api_paginate_go fetch pageSize maxPages fuel page acc =
        api_paginate_go fetch pageSize maxPages (fuel - N) (page + N)
          (acc ++ concatPages fetch page N) := by
  intro N
  induction N with
  | zero =>
    intro page fuel acc _ _ _
    simp [concatPages]
  | succ N ih =>
    intro page fuel acc hfull hcap hfuel
    obtain ⟨rows, hfetch, hlen⟩ := hfull 0 (Nat.succ_pos N)
    rw [Nat.add_zero] at hfetch
    cases fuel with
    | zero => omega
    | succ f =>
      rw [api_go_full_step fetch pageSize maxPages f acc hfetch hlen hps (by omega)]
      rw [ih (page + 1) f (acc ++ rows)
        (fun i hi => by
          have h2 := hfull (i + 1) (by omega)
          rwa [show page + (i + 1) = page + 1 + i from by omega] at h2)
        (by omega) (by omega)]
      have h1 : f - N = f + 1 - (N + 1) := by omega
      have h2 : page + 1 + N = page + (N + 1) := by omega
      have h3 : concatPages fetch page (N + 1) = rows ++ concatPages fetch (page + 1) N := by
        show rowsOf fetch page ++ _ = _
        rw [show rowsOf fetch page = rows from by unfold rowsOf; rw [hfetch]; rfl]
      rw [h1, h2, h3, ← List.append_assoc]

theorem concatPages_succ_right {α : Type} (fetch : Nat → Option (PageData α)) :
    ∀ (n start : Nat), concatPages fetch start (n + 1) =
      concatPages fetch start n ++ rowsOf fetch (start + n) := by
  intro n
  induction n with
  | zero => intro start; simp [concatPages]
  | succ n ih =>
    intro start
    show rowsOf fetch start ++ concatPages fetch (start + 1) (n + 1) = _
    rw [ih (start + 1)]
    show _ = (rowsOf fetch start ++ concatPages fetch (start + 1) n) ++ _
    rw [List.append_assoc]
    rw [show start + 1 + n = start + (n + 1) from by omega]

/-- C7 amended: pages are requested sequentially from page 1; a page is
terminal when it returns no rows or fewer rows than the page size, when a
dict response carries no truthy `next`, when the request fails, or when
the `max_pages` cap is reached; on a failure mid-listing all rows
accumulated from prior pages are returned (the failure is recorded only
in the log — the returned value is a bare row list with no partial-
failure indication).  Concretely: after `N` full-with-next pages below
the cap, a failing page `N+1` yields the rows of pages `1..N`, a short
page `N+1` yields those rows plus its own, and when every page up to the
cap is full with `next`, pagination stops at the cap with the rows of
pages `1..max_pages`. -/
theorem c7_amended {α : Type} (fetch : Nat → Option (PageData α))
    (pageSize maxPages N : Nat) (hps : 0 < pageSize)
    (hfull : ∀ p, 1 ≤ p → p ≤ N → pageIsFullNext fetch pageSize p)
    (hcap : N + 1 ≤ maxPages) :
    (fetch (N + 1) = none →
      api_paginate fetch pageSize maxPages = concatPages fetch 1 N) ∧
    (∀ rows nxt, fetch (N + 1) = some (.dictResults rows nxt) → rows ≠ [] →
      rows.length < pageSize →
      api_paginate fetch pageSize maxPages = concatPages fetch 1 N ++ rows) ∧
    ((∀ p, 1 ≤ p → p ≤ maxPages → pageIsFullNext fetch pageSize p) →
      api_paginate fetch pageSize maxPages = concatPages fetch 1 maxPages) := by
  have hbase : api_paginate fetch pageSize maxPages =
      api_paginate_go fetch pageSize maxPages (maxPages + 1 - N) (1 + N)
        ([] ++ concatPages fetch 1 N) := by
    unfold api_paginate
    exact api_go_full fetch pageSize maxPages hps N 1 (maxPages + 1) []
      (fun i hi => hfull (1 + i) (by omega) (by omega)) (by omega) (by omega)
  rw [List.nil_append] at hbase
  rw [show maxPages + 1 - N = (maxPages - N) + 1 from by omega] at hbase
  rw [show 1 + N = N + 1 from by omega] at hbase
  refine ⟨?_, ?_, ?_⟩
  · intro hfail
    rw [hbase]
    exact api_go_fail fetch pageSize maxPages _ _ hfail
  · intro rows nxt hfetch hne hshort
    rw [hbase]
    exact api_go_short fetch pageSize maxPages _ _ hfetch hne hshort
  · intro hallfull
    have hmp1 : 1 ≤ maxPages := by omega
    have hbase2 : api_paginate fetch pageSize maxPages =
        api_paginate_go fetch pageSize maxPages (maxPages + 1 - (maxPages - 1))
          (1 + (maxPages - 1)) ([] ++ concatPages fetch 1 (maxPages - 1)) := by
      unfold api_paginate
      exact api_go_full fetch pageSize maxPages hps (maxPages - 1) 1 (maxPages + 1) []
        (fun i hi => hallfull (1 + i) (by omega) (by omega)) (by omega) (by omega)
    rw [List.nil_append] at hbase2
    rw [show maxPages + 1 - (maxPages - 1) = 1 + 1 from by omega] at hbase2
    rw [show 1 + (maxPages - 1) = maxPages from by omega] at hbase2
    obtain ⟨rows, hfetch, hlen⟩ := hallfull maxPages hmp1 (Nat.le_refl _)
    have hrows : rowsOf fetch maxPages = rows := by
      unfold rowsOf
      rw [hfetch]
      rfl
    have hsnoc : concatPages fetch 1 maxPages =
        concatPages fetch 1 (maxPages - 1) ++ rows := by
      conv_lhs => rw [show maxPages = (maxPages - 1) + 1 from by omega]
      rw [concatPages_succ_right]
      rw [show 1 + (maxPages - 1) = maxPages from by omega, hrows]
    rw [hbase2, hsnoc]
    exact api_go_cap_step fetch pageSize maxPages 1 _ hfetch hlen hps (by omega)

def c7okFetch : Nat → Option (PageData Nat) := fun p =>
  if p ≤ 2 then some (.dictResults [p, p] true) else none

theorem c7_witness :
    api_paginate c7okFetch 2 10 = concatPages c7okFetch 1 2 :=
  (c7_amended c7okFetch 2 10 2 (by decide)
    (fun p _ hp2 => ⟨[p, p], by simp [c7okFetch, hp2], rfl⟩) (by decide)).1 (by decide)

end VOD